import Mathlib

/-!
Verification development for `bench_conn.c` (mmal-bench-connection).

The fuzzy option resolver `match_string_fuzzy`, the option tables, the
command-line switch of `main`, the pre-pipeline validation, and the
sleep-interval computation are shallowly embedded below, translated
directly from `src/bench_conn.c` and `src/common.h`.
-/

/-- A C string, as the list of its characters before the terminating NUL. -/
abbrev Str := List Char

/-- ASCII `tolower`, as used by `strncasecmp` in the C locale. -/
def lowerChar (c : Char) : Char :=
  if 'A' ≤ c ∧ c ≤ 'Z' then Char.ofNat (c.toNat + 32) else c

/-- `strncasecmp(a, b, k) == 0`: the first `k` characters of `a` and `b`
agree case-insensitively, where the comparison stops at the first NUL
(modeled by the list end) in either string. -/
def strncasecmpZero : Str → Str → Nat → Bool
  | _, _, 0 => true
  | [], [], _ + 1 => true
  | [], _ :: _, _ + 1 => false
  | _ :: _, [], _ + 1 => false
  | a :: as, b :: bs, k + 1 => (lowerChar a == lowerChar b) && strncasecmpZero as bs k

/-- Linux error numbers used by `match_string_fuzzy` (errno.h). -/
def ENOENT : Int := 2

/-- `ENOTUNIQ` from errno.h. -/
def ENOTUNIQ : Int := 76

/-- The local state of one pass of the inner `for` loop of
`match_string_fuzzy` (bench_conn.c:90-108).  In C `matched_index` is
uninitialized until `is_matched` is set; it is modeled as starting at 0
and is only read when `is_matched` is true. -/
structure ScanState where
  is_null_found : Bool
  is_matched : Bool
  is_ambiguous : Bool
  matched_index : Nat
deriving Repr, DecidableEq

/-- One inner scan of `match_string_fuzzy` (bench_conn.c:93-108) over the
remaining part of the array, with `budget` = `n - index` iterations left and
`idx` the current index.  A NULL entry (`none`) breaks the scan; an entry
whose length is at most `count` sets `is_null_found` (`item[count] == '\0'`;
positions past the terminator are modeled as NUL); a second case-insensitive
prefix match sets `is_ambiguous` and breaks. -/
def scanItems (string : Str) (count : Nat) :
    List (Option Str) → Nat → Nat → ScanState → ScanState
  | _, 0, _, s => s
  | [], _ + 1, _, s => s
  | none :: _, _ + 1, _, s => s
  | some item :: rest, budget + 1, idx, s =>
    let s := if item.length ≤ count then { s with is_null_found := true } else s
    if strncasecmpZero item string count then
      if s.is_matched then { s with is_ambiguous := true }
      else scanItems string count rest budget (idx + 1)
        { s with is_matched := true, matched_index := idx }
    else scanItems string count rest budget (idx + 1) s

/-- The C scan starts from a fresh all-false state each round. -/
def initState : ScanState := ⟨false, false, false, 0⟩

/-- The outer `for (count = 1; ; count++)` loop of `match_string_fuzzy`
(bench_conn.c:90-113), with explicit `fuel` bounding the number of rounds
(`none` models running out of fuel, i.e. observing no return yet). -/
def matchLoop (array : List (Option Str)) (n : Nat) (string : Str) :
    Nat → Nat → Option Int
  | 0, _ => none
  | fuel + 1, count =>
    let s := scanItems string count array n 0 initState
    if s.is_matched && !s.is_ambiguous then some (s.matched_index : Int)
    else if s.is_null_found then some (-ENOTUNIQ)
    else matchLoop array n string fuel (count + 1)

/-- The first `for` loop of `match_string_fuzzy` (bench_conn.c:82-88):
scan up to `n` entries, stopping at a NULL entry, and report whether some
entry is the empty string (`item[0] == '\0'`). -/
def hasEmptyEntry : List (Option Str) → Nat → Bool
  | _, 0 => false
  | [], _ + 1 => false
  | none :: _, _ + 1 => false
  | some item :: rest, budget + 1 => item.isEmpty || hasEmptyEntry rest budget

/-- `match_string_fuzzy` (bench_conn.c:76-115): returns the index of the
unique case-insensitive prefix match of `string` in `array`, `-ENOENT` if
some entry is empty, and `-ENOTUNIQ` once a round sees an exhausted entry
without a unique match.  `fuel` bounds the outer loop. -/
def match_string_fuzzy (array : List (Option Str)) (n : Nat) (string : Str)
    (fuel : Nat) : Option Int :=
  if hasEmptyEntry array n then some (-ENOENT)
  else matchLoop array n string fuel 1

/-- A candidate table in the format the program builds them: the candidate
strings followed by the NULL sentinel (bench_conn.c:156-207). -/
def mkTable (cands : List Str) : List (Option Str) :=
  cands.map some ++ [none]

/-- `MMAL_COUNTOF` on a table: the number of array elements, sentinel
included. -/
def MMAL_COUNTOF (array : List (Option Str)) : Nat := array.length

/-- `encoding_table` (bench_conn.c:156-158). -/
def encoding_table : List (Option Str) :=
  [some "i420".toList, some "rgba".toList, none]

/-- `source_table` (bench_conn.c:166-168). -/
def source_table : List (Option Str) :=
  [some "source".toList, some "camera".toList, none]

/-- `pattern_table` (bench_conn.c:177-180). -/
def pattern_table : List (Option Str) :=
  [some "white".toList, some "black".toList, some "diagonal".toList,
   some "noise".toList, some "random".toList, some "colour".toList,
   some "blocks".toList, some "swirly".toList, none]

/-- `dest_table` (bench_conn.c:195-197). -/
def dest_table : List (Option Str) :=
  [some "null".toList, some "render".toList, none]

/-- `conn_table` (bench_conn.c:205-207). -/
def conn_table : List (Option Str) :=
  [some "tunnel".toList, some "callback".toList, some "queue".toList, none]

example : match_string_fuzzy encoding_table 3 "x".toList 9 = some (-ENOTUNIQ) := by decide
example : match_string_fuzzy encoding_table 3 "opaque".toList 9 = some (-ENOTUNIQ) := by decide
example : match_string_fuzzy encoding_table 3 "rgba".toList 9 = some 1 := by decide
example : match_string_fuzzy encoding_table 3 "i".toList 9 = some 0 := by decide
example : match_string_fuzzy [some [], none] 2 "x".toList 5 = some (-ENOENT) := by decide
example : match_string_fuzzy source_table 3 "s".toList 9 = some 0 := by decide
example : match_string_fuzzy source_table 3 "c".toList 9 = some 1 := by decide
example : match_string_fuzzy (mkTable ["colour".toList, "camera".toList]) 3 "c".toList 10 =
    some (-ENOTUNIQ) := by decide
example : match_string_fuzzy (mkTable ["ab".toList, "c".toList, "ax".toList]) 4 "ab".toList 9 =
    some (-ENOTUNIQ) := by decide
example : match_string_fuzzy pattern_table 9 "dia".toList 12 = some 2 := by decide
example : match_string_fuzzy conn_table 4 "t".toList 12 = some 0 := by decide

/-! ### Infrastructure for reasoning about the resolver -/

/-- Candidate `item` matches the input at round `count`
(`!strncasecmp(item, string, count)` in bench_conn.c:99). -/
def matchesAt (item string : Str) (count : Nat) : Bool :=
  strncasecmpZero item string count

/-- Number of candidates matching at round `count`. -/
def countMatches (cands : List Str) (string : Str) (count : Nat) : Nat :=
  (cands.filter (fun c => matchesAt c string count)).length

/-- Some candidate has been exhausted at round `count`
(`item[count] == '\0'` for some scanned item). -/
def anyNull (cands : List Str) (count : Nat) : Bool :=
  cands.any (fun c => decide (c.length ≤ count))

/-- Case-insensitive image of a string. -/
def lower (s : Str) : Str := s.map lowerChar

theorem strncasecmpZero_iff_take (a : Str) :
    ∀ (b : Str) (k : Nat),
      (strncasecmpZero a b k = true ↔ (lower a).take k = (lower b).take k) := by
  induction a with
  | nil =>
    intro b k
    cases b with
    | nil => cases k <;> simp [strncasecmpZero, lower]
    | cons y ys => cases k <;> simp [strncasecmpZero, lower]
  | cons x xs ih =>
    intro b k
    cases b with
    | nil => cases k <;> simp [strncasecmpZero, lower]
    | cons y ys =>
      cases k with
      | zero => simp [strncasecmpZero]
      | succ k =>
        simp [strncasecmpZero, lower, Bool.and_eq_true, beq_iff_eq, ih ys k]

theorem strncasecmpZero_self (a : Str) (k : Nat) : strncasecmpZero a a k = true := by
  rw [strncasecmpZero_iff_take]

theorem matchesAt_self (a : Str) (k : Nat) : matchesAt a a k = true :=
  strncasecmpZero_self a k

theorem matchesAt_mono {c w : Str} {k k' : Nat} (h : matchesAt c w k = true)
    (hk : k' ≤ k) : matchesAt c w k' = true := by
  rw [matchesAt, strncasecmpZero_iff_take] at h ⊢
  calc (lower c).take k' = ((lower c).take k).take k' := by
        rw [List.take_take, Nat.min_eq_left hk]
    _ = ((lower w).take k).take k' := by rw [h]
    _ = (lower w).take k' := by rw [List.take_take, Nat.min_eq_left hk]

/-- The inner scan specialized to a `mkTable`-format table: the NULL
sentinel ends the scan exactly where the candidate list ends. -/
def scanCands (string : Str) (count : Nat) : List Str → Nat → ScanState → ScanState
  | [], _, s => s
  | item :: rest, idx, s =>
    let s := if item.length ≤ count then { s with is_null_found := true } else s
    if strncasecmpZero item string count then
      if s.is_matched then { s with is_ambiguous := true }
      else scanCands string count rest (idx + 1)
        { s with is_matched := true, matched_index := idx }
    else scanCands string count rest (idx + 1) s

theorem scanItems_mkTable (w : Str) (k : Nat) :
    ∀ (cands : List Str) (idx : Nat) (s : ScanState),
      scanItems w k (cands.map some ++ [none]) (cands.length + 1) idx s =
        scanCands w k cands idx s := by
  intro cands
  induction cands with
  | nil => intro idx s; rfl
  | cons c rest ih =>
    intro idx s
    show scanItems w k (some c :: (rest.map some ++ [none])) (rest.length + 1 + 1) idx s = _
    simp only [scanItems, scanCands]
    by_cases h1 : c.length ≤ k <;> by_cases h2 : strncasecmpZero c w k <;>
      cases hm : s.is_matched <;> simp [h1, h2, hm, ih]

theorem countMatches_cons (c : Str) (rest : List Str) (w : Str) (k : Nat) :
    countMatches (c :: rest) w k =
      (if matchesAt c w k then 1 else 0) + countMatches rest w k := by
  simp only [countMatches, List.filter_cons]
  split <;> simp [Nat.add_comm]

theorem countMatches_pos (w : Str) (k : Nat) :
    ∀ (cands : List Str) (j : Nat), j < cands.length →
      matchesAt (cands.getD j []) w k = true → 1 ≤ countMatches cands w k := by
  intro cands
  induction cands with
  | nil => intro j hj hm; simp at hj
  | cons c rest ih =>
    intro j hj hm
    rw [countMatches_cons]
    cases j with
    | zero => simp at hm; simp [hm]
    | succ j =>
      have := ih j (by simpa using hj) (by simpa using hm)
      omega

theorem countMatches_eq_zero (w : Str) (k : Nat) {cands : List Str}
    (h : countMatches cands w k = 0) :
    ∀ j, j < cands.length → matchesAt (cands.getD j []) w k = false := by
  intro j hj
  cases hm : matchesAt (cands.getD j []) w k with
  | false => rfl
  | true => have := countMatches_pos w k cands j hj hm; omega

theorem countMatches_zero_of_all (w : Str) (k : Nat) :
    ∀ (cands : List Str),
      (∀ j, j < cands.length → matchesAt (cands.getD j []) w k = false) →
      countMatches cands w k = 0 := by
  intro cands
  induction cands with
  | nil => intro _; rfl
  | cons c rest ih =>
    intro h
    rw [countMatches_cons]
    have h0 : matchesAt c w k = false := by simpa using h 0 (by simp)
    have hr : countMatches rest w k = 0 := by
      refine ih (fun j hj => ?_)
      simpa using h (j + 1) (by simpa using hj)
    simp [h0, hr]

theorem countMatches_unique (w : Str) (k : Nat) :
    ∀ (cands : List Str), countMatches cands w k = 1 →
      ∀ j1 j2, j1 < cands.length → j2 < cands.length →
        matchesAt (cands.getD j1 []) w k = true →
        matchesAt (cands.getD j2 []) w k = true → j1 = j2 := by
  intro cands
  induction cands with
  | nil => intro _ j1 j2 h1; simp at h1
  | cons c rest ih =>
    intro h j1 j2 hj1 hj2 hm1 hm2
    rw [countMatches_cons] at h
    cases hc : matchesAt c w k with
    | true =>
      have hr : countMatches rest w k = 0 := by simp [hc] at h; omega
      have hz := countMatches_eq_zero w k hr
      cases j1 with
      | zero =>
        cases j2 with
        | zero => rfl
        | succ j2 =>
          have hz2 := hz j2 (by simpa using hj2)
          have hm2' : matchesAt (rest.getD j2 []) w k = true := by
            rw [show (c :: rest).getD (j2 + 1) [] = rest.getD j2 [] from rfl] at hm2
            exact hm2
          rw [List.getD_eq_getElem?_getD] at hz2
          simp [hz2] at hm2'
      | succ j1 =>
        have hz1 := hz j1 (by simpa using hj1)
        have hm1' : matchesAt (rest.getD j1 []) w k = true := by
          rw [show (c :: rest).getD (j1 + 1) [] = rest.getD j1 [] from rfl] at hm1
          exact hm1
        rw [List.getD_eq_getElem?_getD] at hz1
        simp [hz1] at hm1'
    | false =>
      have hr : countMatches rest w k = 1 := by simp [hc] at h; omega
      cases j1 with
      | zero => rw [List.getD_cons_zero] at hm1; simp [hc] at hm1
      | succ j1 =>
        cases j2 with
        | zero => rw [List.getD_cons_zero] at hm2; simp [hc] at hm2
        | succ j2 =>
          have := ih hr j1 j2 (by simpa using hj1) (by simpa using hj2)
            (by simpa using hm1) (by simpa using hm2)
          omega

theorem countMatches_eq_one (w : Str) (k : Nat) :
    ∀ (cands : List Str) (i : Nat), i < cands.length →
      matchesAt (cands.getD i []) w k = true →
      (∀ j, j < cands.length → j ≠ i → matchesAt (cands.getD j []) w k = false) →
      countMatches cands w k = 1 := by
  intro cands
  induction cands with
  | nil => intro i hi; simp at hi
  | cons c rest ih =>
    intro i hi hm ho
    rw [countMatches_cons]
    cases i with
    | zero =>
      rw [List.getD_cons_zero] at hm
      have hr : countMatches rest w k = 0 := by
        refine countMatches_zero_of_all w k rest (fun j hj => ?_)
        simpa using ho (j + 1) (by simpa using hj) (by omega)
      simp [hm, hr]
    | succ i =>
      have h0 : matchesAt c w k = false := by
        simpa using ho 0 (by simp) (by omega)
      have hr : countMatches rest w k = 1 := by
        refine ih i (by simpa using hi) (by simpa using hm) (fun j hj hne => ?_)
        simpa using ho (j + 1) (by simpa using hj) (by omega)
      simp [h0, hr]

theorem anyNull_eq_false {cands : List Str} {k : Nat}
    (h : ∀ c ∈ cands, k < c.length) : anyNull cands k = false := by
  simp only [anyNull, List.any_eq_false, decide_eq_true_eq]
  intro c hc
  exact Nat.not_le_of_lt (h c hc)

theorem anyNull_exists {cands : List Str} {k : Nat}
    (h : anyNull cands k = true) : ∃ c ∈ cands, c.length ≤ k := by
  simpa only [anyNull, List.any_eq_true, decide_eq_true_eq] using h

theorem anyNull_cons (c : Str) (rest : List Str) (k : Nat) :
    anyNull (c :: rest) k = (decide (c.length ≤ k) || anyNull rest k) := by
  simp [anyNull]

/-- Behavior of the inner scan once a first match has been recorded:
either no further candidate matches and the scan only accumulates the
exhaustion flag, or a second match turns on `is_ambiguous` and breaks. -/
theorem scanCands_after_match (w : Str) (k : Nat) :
    ∀ (cands : List Str) (idx : Nat) (b : Bool) (mi : Nat),
      ((∀ c ∈ cands, matchesAt c w k = false) ∧
        scanCands w k cands idx ⟨b, true, false, mi⟩ =
          ⟨b || anyNull cands k, true, false, mi⟩) ∨
      ((∃ c ∈ cands, matchesAt c w k = true) ∧
        (scanCands w k cands idx ⟨b, true, false, mi⟩).is_matched = true ∧
        (scanCands w k cands idx ⟨b, true, false, mi⟩).is_ambiguous = true ∧
        ((scanCands w k cands idx ⟨b, true, false, mi⟩).is_null_found = true →
          (b || anyNull cands k) = true)) := by
  intro cands
  induction cands with
  | nil =>
    intro idx b mi
    left
    refine ⟨by simp, ?_⟩
    simp [scanCands, anyNull]
  | cons c rest ih =>
    intro idx b mi
    by_cases h2 : strncasecmpZero c w k
    · right
      refine ⟨⟨c, by simp, h2⟩, ?_⟩
      by_cases h1 : c.length ≤ k <;>
        simp [scanCands, h1, h2, anyNull_cons] <;> tauto
    · have step : scanCands w k (c :: rest) idx ⟨b, true, false, mi⟩ =
          scanCands w k rest (idx + 1) ⟨b || decide (c.length ≤ k), true, false, mi⟩ := by
        by_cases h1 : c.length ≤ k <;> simp [scanCands, h1, h2]
      rcases ih (idx + 1) (b || decide (c.length ≤ k)) mi with ⟨hall, heq⟩ | ⟨hex, hm, ha, hn⟩
      · left
        refine ⟨?_, ?_⟩
        · intro x hx
          rcases List.mem_cons.mp hx with rfl | hx
          · simpa [matchesAt] using h2
          · exact hall x hx
        · rw [step, heq, anyNull_cons, Bool.or_assoc]
      · right
        refine ⟨?_, ?_, ?_, ?_⟩
        · rcases hex with ⟨x, hx, hmx⟩; exact ⟨x, by simp [hx], hmx⟩
        · rw [step]; exact hm
        · rw [step]; exact ha
        · rw [step]; intro hnn
          have := hn hnn
          rw [anyNull_cons, ← Bool.or_assoc]
          exact this

/-- Full case analysis of one inner scan from the fresh state: no match,
a unique match (returning its index), or at least two matches (ambiguous
break, which can hide exhausted candidates after the break point). -/
theorem scanCands_cases (w : Str) (k : Nat) :
    ∀ (cands : List Str) (idx : Nat) (b : Bool) (mi : Nat),
      (countMatches cands w k = 0 ∧
        scanCands w k cands idx ⟨b, false, false, mi⟩ =
          ⟨b || anyNull cands k, false, false, mi⟩) ∨
      (∃ j, j < cands.length ∧ matchesAt (cands.getD j []) w k = true ∧
        countMatches cands w k = 1 ∧
        scanCands w k cands idx ⟨b, false, false, mi⟩ =
          ⟨b || anyNull cands k, true, false, idx + j⟩) ∨
      (2 ≤ countMatches cands w k ∧
        (scanCands w k cands idx ⟨b, false, false, mi⟩).is_matched = true ∧
        (scanCands w k cands idx ⟨b, false, false, mi⟩).is_ambiguous = true ∧
        ((scanCands w k cands idx ⟨b, false, false, mi⟩).is_null_found = true →
          (b || anyNull cands k) = true)) := by
  intro cands
  induction cands with
  | nil =>
    intro idx b mi
    left
    refine ⟨rfl, ?_⟩
    simp [scanCands, anyNull]
  | cons c rest ih =>
    intro idx b mi
    by_cases h2 : strncasecmpZero c w k
    · -- head matches: state becomes matched with index idx
      have step : scanCands w k (c :: rest) idx ⟨b, false, false, mi⟩ =
          scanCands w k rest (idx + 1) ⟨b || decide (c.length ≤ k), true, false, idx⟩ := by
        by_cases h1 : c.length ≤ k <;> simp [scanCands, h1, h2]
      rcases scanCands_after_match w k rest (idx + 1) (b || decide (c.length ≤ k)) idx with
        ⟨hall, heq⟩ | ⟨hex, hm, ha, hn⟩
      · right; left
        refine ⟨0, by simp, by simpa [matchesAt] using h2, ?_, ?_⟩
        · rw [countMatches_cons]
          have hr : countMatches rest w k = 0 := by
            refine countMatches_zero_of_all w k rest (fun j hj => ?_)
            have : rest.getD j [] ∈ rest := by
              rw [List.getD_eq_getElem?_getD, List.getElem?_eq_getElem hj]
              exact List.getElem_mem hj
            exact hall _ this
          simp [matchesAt, h2, hr]
        · rw [step, heq, anyNull_cons, Bool.or_assoc, Nat.add_zero]
      · right; right
        refine ⟨?_, ?_, ?_, ?_⟩
        · rw [countMatches_cons]
          rcases hex with ⟨x, hx, hmx⟩
          have : 1 ≤ countMatches rest w k := by
            rcases List.getElem_of_mem hx with ⟨j, hj, hgj⟩
            refine countMatches_pos w k rest j hj ?_
            rw [List.getD_eq_getElem?_getD, List.getElem?_eq_getElem hj, Option.getD_some, hgj]
            exact hmx
          simp only [matchesAt, h2, if_true]
          omega
        · rw [step]; exact hm
        · rw [step]; exact ha
        · rw [step]; intro hnn
          have := hn hnn
          rw [anyNull_cons, ← Bool.or_assoc]
          exact this
    · -- head does not match: clean recursion
      have step : scanCands w k (c :: rest) idx ⟨b, false, false, mi⟩ =
          scanCands w k rest (idx + 1) ⟨b || decide (c.length ≤ k), false, false, mi⟩ := by
        by_cases h1 : c.length ≤ k <;> simp [scanCands, h1, h2]
      rcases ih (idx + 1) (b || decide (c.length ≤ k)) mi with
        ⟨hz, heq⟩ | ⟨j, hj, hmj, hone, heq⟩ | ⟨htwo, hm, ha, hn⟩
      · left
        refine ⟨?_, ?_⟩
        · rw [countMatches_cons]; simp [matchesAt, h2, hz]
        · rw [step, heq, anyNull_cons, Bool.or_assoc]
      · right; left
        refine ⟨j + 1, by simpa using hj, ?_, ?_, ?_⟩
        · rw [show (c :: rest).getD (j + 1) [] = rest.getD j [] from rfl]
          exact hmj
        · rw [countMatches_cons]; simp [matchesAt, h2, hone]
        · rw [step, heq, anyNull_cons, Bool.or_assoc]
          congr 1
          omega
      · right; right
        refine ⟨?_, ?_, ?_, ?_⟩
        · rw [countMatches_cons]; simp only [matchesAt, h2, if_false]; omega
        · rw [step]; exact hm
        · rw [step]; exact ha
        · rw [step]; intro hnn
          have := hn hnn
          rw [anyNull_cons, ← Bool.or_assoc]
          exact this

/-- The return decision the outer loop takes at one round `k` over a
`mkTable`-format table: return an index, return `-ENOTUNIQ`, or grow `k`. -/
def loopStepC (cands : List Str) (w : Str) (k : Nat) : Option Int :=
  let s := scanCands w k cands 0 initState
  if s.is_matched && !s.is_ambiguous then some (s.matched_index : Int)
  else if s.is_null_found then some (-ENOTUNIQ)
  else none

theorem loopStepC_cases (cands : List Str) (w : Str) (k : Nat) :
    (countMatches cands w k = 0 ∧
      loopStepC cands w k = (if anyNull cands k then some (-ENOTUNIQ) else none)) ∨
    (∃ j, j < cands.length ∧ matchesAt (cands.getD j []) w k = true ∧
      countMatches cands w k = 1 ∧ loopStepC cands w k = some (j : Int)) ∨
    (2 ≤ countMatches cands w k ∧
      (loopStepC cands w k = some (-ENOTUNIQ) ∨ loopStepC cands w k = none) ∧
      (loopStepC cands w k = some (-ENOTUNIQ) → anyNull cands k = true)) := by
  rcases scanCands_cases w k cands 0 false 0 with
    ⟨hz, heq⟩ | ⟨j, hj, hmj, hone, heq⟩ | ⟨htwo, hm, ha, hn⟩
  · left
    refine ⟨hz, ?_⟩
    rw [loopStepC, initState, heq]
    by_cases hnul : anyNull cands k <;> simp [hnul]
  · right; left
    refine ⟨j, hj, hmj, hone, ?_⟩
    rw [loopStepC, initState, heq]
    simp
  · right; right
    have hstep : loopStepC cands w k =
        (if (scanCands w k cands 0 (⟨false, false, false, 0⟩ : ScanState)).is_null_found
         then some (-ENOTUNIQ) else none) := by
      simp [loopStepC, initState, hm, ha]
    refine ⟨htwo, ?_, ?_⟩
    · rw [hstep]
      by_cases hnul :
          (scanCands w k cands 0 (⟨false, false, false, 0⟩ : ScanState)).is_null_found = true
      · simp [hnul]
      · simp [hnul]
    · rw [hstep]
      by_cases hnul :
          (scanCands w k cands 0 (⟨false, false, false, 0⟩ : ScanState)).is_null_found = true
      · intro _
        simpa using hn hnul
      · simp [hnul]

theorem matchLoop_mkTable_succ (cands : List Str) (w : Str) (fuel count : Nat) :
    matchLoop (mkTable cands) (cands.length + 1) w (fuel + 1) count =
      (match loopStepC cands w count with
       | some r => some r
       | none => matchLoop (mkTable cands) (cands.length + 1) w fuel (count + 1)) := by
  show (let s := scanItems w count (mkTable cands) (cands.length + 1) 0 initState
    if s.is_matched && !s.is_ambiguous then some (s.matched_index : Int)
    else if s.is_null_found then some (-ENOTUNIQ)
    else matchLoop (mkTable cands) (cands.length + 1) w fuel (count + 1)) = _
  rw [show mkTable cands = cands.map some ++ [none] from rfl,
    scanItems_mkTable w count cands 0 initState]
  cases hm : (scanCands w count cands 0 initState).is_matched <;>
    cases ha : (scanCands w count cands 0 initState).is_ambiguous <;>
    cases hn : (scanCands w count cands 0 initState).is_null_found <;>
    simp [loopStepC, hm, ha, hn]

theorem matchLoop_step_some {cands : List Str} {w : Str} {fuel count : Nat} {r : Int}
    (h : loopStepC cands w count = some r) :
    matchLoop (mkTable cands) (cands.length + 1) w (fuel + 1) count = some r := by
  rw [matchLoop_mkTable_succ, h]

theorem matchLoop_step_none {cands : List Str} {w : Str} {fuel count : Nat}
    (h : loopStepC cands w count = none) :
    matchLoop (mkTable cands) (cands.length + 1) w (fuel + 1) count =
      matchLoop (mkTable cands) (cands.length + 1) w fuel (count + 1) := by
  rw [matchLoop_mkTable_succ, h]

theorem matchLoop_mono (array : List (Option Str)) (n : Nat) (w : Str) :
    ∀ (fuel fuel' count : Nat) (r : Int), fuel ≤ fuel' →
      matchLoop array n w fuel count = some r →
      matchLoop array n w fuel' count = some r := by
  intro fuel
  induction fuel with
  | zero => intro fuel' count r _ h; exact absurd h (by simp [matchLoop])
  | succ fuel ih =>
    intro fuel' count r hle h
    obtain ⟨fuel'', rfl⟩ : ∃ m, fuel' = m + 1 := ⟨fuel' - 1, by omega⟩
    rw [matchLoop] at h
    rw [matchLoop]
    set s := scanItems w count array n 0 initState with hs
    by_cases hm : (s.is_matched && !s.is_ambiguous) = true
    · rw [if_pos hm] at h ⊢; exact h
    · rw [if_neg hm] at h ⊢
      by_cases hn : s.is_null_found = true
      · rw [if_pos hn] at h ⊢; exact h
      · rw [if_neg hn] at h ⊢
        exact ih fuel'' (count + 1) r (by omega) h

theorem match_string_fuzzy_mono {array : List (Option Str)} {n : Nat} {w : Str}
    {fuel fuel' : Nat} {r : Int} (hle : fuel ≤ fuel')
    (h : match_string_fuzzy array n w fuel = some r) :
    match_string_fuzzy array n w fuel' = some r := by
  rw [match_string_fuzzy] at h ⊢
  by_cases he : hasEmptyEntry array n = true
  · rw [if_pos he] at h ⊢; exact h
  · rw [if_neg he] at h ⊢
    exact matchLoop_mono array n w fuel fuel' 1 r hle h

theorem scanCands_null_mono (w : Str) (k : Nat) :
    ∀ (cands : List Str) (idx : Nat) (s : ScanState), s.is_null_found = true →
      (scanCands w k cands idx s).is_null_found = true := by
  intro cands
  induction cands with
  | nil => intro idx s h; simpa [scanCands] using h
  | cons c rest ih =>
    intro idx s h
    have h1 : (if c.length ≤ k then { s with is_null_found := true } else s).is_null_found
        = true := by
      by_cases hc : c.length ≤ k <;> simp [hc, h]
    simp only [scanCands]
    by_cases hc : c.length ≤ k <;> by_cases h2 : strncasecmpZero c w k <;>
      cases hm : s.is_matched <;>
      simp only [hc, h2, hm, if_pos, if_neg, if_true, if_false] <;>
      first
        | (apply ih; simp [h])
        | simp [h]

/-- Once the first entry of the table is exhausted, the round cannot
decide to grow `k` further: the scan reaches the first entry before any
ambiguity break, so `is_null_found` is set. -/
theorem loopStepC_head_exhausted {c0 : Str} {rest : List Str} {w : Str} {k : Nat}
    (h : c0.length ≤ k) : loopStepC (c0 :: rest) w k ≠ none := by
  have hnull : ∀ s0 : ScanState,
      (scanCands w k (c0 :: rest) 0 s0).is_null_found = true := by
    intro s0
    simp only [scanCands, if_pos h]
    by_cases h2 : strncasecmpZero c0 w k <;>
      cases hm : ({ s0 with is_null_found := true } : ScanState).is_matched <;>
      simp only [h2, hm, if_true, if_false] <;>
      first
        | (apply scanCands_null_mono; rfl)
        | rfl
  rw [loopStepC]
  set s := scanCands w k (c0 :: rest) 0 initState with hs
  have hn : s.is_null_found = true := hnull initState
  by_cases hm : (s.is_matched && !s.is_ambiguous) = true
  · simp [hm]
  · simp [hm, hn]

theorem hasEmptyEntry_mkTable (cands : List Str) :
    hasEmptyEntry (mkTable cands) (cands.length + 1) = cands.any List.isEmpty := by
  induction cands with
  | nil => rfl
  | cons c rest ih =>
    show (c.isEmpty || hasEmptyEntry (rest.map some ++ [none]) (rest.length + 1)) = _
    rw [show hasEmptyEntry (rest.map some ++ [none]) (rest.length + 1)
        = hasEmptyEntry (mkTable rest) (rest.length + 1) from rfl, ih]
    simp

theorem hasEmptyEntry_mkTable_false {cands : List Str}
    (h : ∀ c ∈ cands, c ≠ []) :
    hasEmptyEntry (mkTable cands) (cands.length + 1) = false := by
  rw [hasEmptyEntry_mkTable]
  simp only [List.any_eq_false]
  intro c hc
  simpa [List.isEmpty_iff] using h c hc

theorem matchLoop_total (c0 : Str) (rest : List Str) (w : Str) :
    ∀ (fuel count : Nat), c0.length ≤ count + fuel →
      (matchLoop (mkTable (c0 :: rest)) ((c0 :: rest).length + 1) w (fuel + 1) count).isSome := by
  intro fuel
  induction fuel with
  | zero =>
    intro count h
    cases ho : loopStepC (c0 :: rest) w count with
    | none => exact absurd ho (loopStepC_head_exhausted (by omega))
    | some r => rw [matchLoop_step_some ho]; rfl
  | succ fuel ih =>
    intro count h
    cases ho : loopStepC (c0 :: rest) w count with
    | none =>
      rw [matchLoop_step_none ho]
      exact ih (count + 1) (by omega)
    | some r => rw [matchLoop_step_some ho]; rfl

/-- Claim C10: for every candidate table (in the program's format:
candidates followed by the NULL sentinel, with `n` counting the sentinel)
containing at least one non-null, non-empty candidate string, and for every
input string, `match_string_fuzzy` terminates: some finite fuel makes the
embedded outer loop return. -/
theorem c10_resolver_terminates (cands : List Str) (w : Str)
    (h : ∃ c ∈ cands, c ≠ ([] : Str)) :
    ∃ fuel r, match_string_fuzzy (mkTable cands) (MMAL_COUNTOF (mkTable cands)) w fuel =
      some r := by
  have hn : MMAL_COUNTOF (mkTable cands) = cands.length + 1 := by
    simp [MMAL_COUNTOF, mkTable]
  rw [hn]
  by_cases he : hasEmptyEntry (mkTable cands) (cands.length + 1) = true
  · exact ⟨1, -ENOENT, by rw [match_string_fuzzy, if_pos he]⟩
  · obtain ⟨c, hc, hcne⟩ := h
    obtain ⟨c0, rest, rfl⟩ : ∃ c0 rest, cands = c0 :: rest := by
      cases cands with
      | nil => simp at hc
      | cons a l => exact ⟨a, l, rfl⟩
    have htot := matchLoop_total c0 rest w c0.length 1 (by omega)
    obtain ⟨r, hr⟩ := Option.isSome_iff_exists.mp htot
    refine ⟨c0.length + 1, r, ?_⟩
    rw [match_string_fuzzy, if_neg he]
    exact hr

theorem c10_witness : ∃ fuel r,
    match_string_fuzzy (mkTable ["i420".toList, "rgba".toList])
      (MMAL_COUNTOF (mkTable ["i420".toList, "rgba".toList])) "x".toList fuel = some r :=
  c10_resolver_terminates ["i420".toList, "rgba".toList] "x".toList
    ⟨"i420".toList, by decide, by decide⟩

/-- Claim C3 counterexample: with the table `{"", NULL}` (an explicit
empty-string entry), the resolver fails with exactly the `-ENOENT` code —
the same code as the "not found" (UnknownValue) failure — so there is no
distinct InvalidCandidateTable failure code different from both
UnknownValue and AmbiguousInput. -/
theorem c3_counterexample :
    match_string_fuzzy [some [], none] 2 "x".toList 5 = some (-ENOENT) ∧
    ¬ (∃ r, match_string_fuzzy [some [], none] 2 "x".toList 5 = some r ∧
        r ≠ -ENOENT ∧ r ≠ -ENOTUNIQ) := by
  refine ⟨by decide, ?_⟩
  rintro ⟨r, hr, hne, -⟩
  rw [show match_string_fuzzy [some [], none] 2 "x".toList 5 = some (-ENOENT) by decide] at hr
  exact hne (Option.some.inj hr).symm

/-- Claim C3 (amended): for every candidate table containing an
empty-string entry among the entries scanned before the NULL sentinel, and
for every input string, the resolver fails with the `-ENOENT` code (the
same code as the not-found failure; the source has no distinct
InvalidCandidateTable code), never returning a candidate index. -/
theorem c3_amended (array : List (Option Str)) (n : Nat) (w : Str) (fuel : Nat)
    (h : hasEmptyEntry array n = true) :
    match_string_fuzzy array n w fuel = some (-ENOENT) := by
  rw [match_string_fuzzy, if_pos h]

theorem c3_amended_witness :
    match_string_fuzzy [some [], some "a".toList, none] 3 "zz".toList 7 = some (-ENOENT) :=
  c3_amended [some [], some "a".toList, none] 3 "zz".toList 7 (by decide)

/-- Claim C1: with the encoding table `{"i420", "rgba", NULL}` and input
"x", no candidate's prefix of any length `k ≥ 1` matches the input, yet
`match_string_fuzzy` returns `-ENOTUNIQ` (the "ambiguous" failure), not
`-ENOENT` ("not found") as the claim states: the function's trailing
`return -ENOENT` is unreachable. -/
theorem c1_no_match_reports_enotuniq :
    (∀ k, 1 ≤ k → countMatches ["i420".toList, "rgba".toList] "x".toList k = 0) ∧
    match_string_fuzzy encoding_table (MMAL_COUNTOF encoding_table) "x".toList 9 =
      some (-ENOTUNIQ) ∧
    -ENOTUNIQ ≠ -ENOENT := by
  refine ⟨?_, by decide, by decide⟩
  intro k hk
  refine countMatches_zero_of_all _ _ _ (fun j hj => ?_)
  cases hm : matchesAt (["i420".toList, "rgba".toList].getD j []) "x".toList k with
  | false => rfl
  | true =>
    have h1 := matchesAt_mono hm hk
    have hj2 : j < 2 := by simpa using hj
    interval_cases j
    · exact absurd h1 (by decide)
    · exact absurd h1 (by decide)

theorem c1_witness : countMatches ["i420".toList, "rgba".toList] "x".toList 3 = 0 :=
  c1_no_match_reports_enotuniq.1 3 (by omega)

/-- Claim C2: the `-e` candidate table in the source is
`{"i420", "rgba", NULL}`, not `{"i420", "opaque"}`: resolving "opaque"
fails (with the ambiguous code), while "rgba" — a value outside
{i420, opaque} — is accepted with index 1, contradicting the program's own
usage text ("Must be one of: i420, opaque"). -/
theorem c2_encoding_table_is_rgba_not_opaque :
    match_string_fuzzy encoding_table (MMAL_COUNTOF encoding_table) "opaque".toList 9 =
      some (-ENOTUNIQ) ∧
    match_string_fuzzy encoding_table (MMAL_COUNTOF encoding_table) "rgba".toList 9 =
      some 1 := by
  exact ⟨by decide, by decide⟩

theorem loopStepC_enotuniq {cands : List Str} {w : Str} {k : Nat}
    (h : loopStepC cands w k = some (-ENOTUNIQ)) :
    anyNull cands k = true ∧ countMatches cands w k ≠ 1 := by
  rcases loopStepC_cases cands w k with
    ⟨h0, heq⟩ | ⟨j, hj, hmj, hone, heq⟩ | ⟨htwo, hor, himp⟩
  · rw [heq] at h
    by_cases hnul : anyNull cands k = true
    · exact ⟨hnul, by omega⟩
    · simp [hnul] at h
  · rw [heq] at h
    have hji : (j : Int) = -ENOTUNIQ := Option.some.inj h
    have h0 : (0 : Int) ≤ (j : Int) := Int.natCast_nonneg j
    rw [ENOTUNIQ] at hji
    omega
  · exact ⟨himp h, by omega⟩

theorem matchLoop_enotuniq (cands : List Str) (w : Str) :
    ∀ (fuel count : Nat),
      matchLoop (mkTable cands) (cands.length + 1) w fuel count = some (-ENOTUNIQ) →
      ∃ k, count ≤ k ∧ loopStepC cands w k = some (-ENOTUNIQ) := by
  intro fuel
  induction fuel with
  | zero => intro count h; exact absurd h (by simp [matchLoop])
  | succ fuel ih =>
    intro count h
    rw [matchLoop_mkTable_succ] at h
    cases ho : loopStepC cands w count with
    | none =>
      rw [ho] at h
      obtain ⟨k, hk, hstep⟩ := ih (count + 1) h
      exact ⟨k, by omega, hstep⟩
    | some r =>
      rw [ho] at h
      simp only [] at h
      have : r = -ENOTUNIQ := Option.some.inj h
      subst this
      exact ⟨count, Nat.le_refl _, ho⟩

/-- Claim C6: (a) when more than one candidate matches at round `k` and no
candidate has been exhausted (every candidate is longer than `k`), the
round does not fail but grows `k`; (b) whenever the resolver fails with
`-ENOTUNIQ` (AmbiguousInput), some round `k ≥ 1` had an exhausted candidate
(length ≤ k) without a unique match; (c) in particular
`match({"colour","camera"}, "c")` fails as ambiguous. -/
theorem c6_ambiguous_only_after_exhaustion :
    (∀ (cands : List Str) (w : Str) (k : Nat), 2 ≤ countMatches cands w k →
      (∀ c ∈ cands, k < c.length) → loopStepC cands w k = none) ∧
    (∀ (cands : List Str) (w : Str) (fuel : Nat),
      match_string_fuzzy (mkTable cands) (cands.length + 1) w fuel = some (-ENOTUNIQ) →
      ∃ k, 1 ≤ k ∧ (∃ c ∈ cands, c.length ≤ k) ∧ countMatches cands w k ≠ 1) ∧
    match_string_fuzzy (mkTable ["colour".toList, "camera".toList]) 3 "c".toList 10 =
      some (-ENOTUNIQ) := by
  refine ⟨?_, ?_, by decide⟩
  · intro cands w k htwo hlong
    rcases loopStepC_cases cands w k with
      ⟨h0, heq⟩ | ⟨j, hj, hmj, hone, heq⟩ | ⟨h2, hor, himp⟩
    · omega
    · omega
    · rcases hor with h1 | h1
      · have := himp h1
        rw [anyNull_eq_false hlong] at this
        exact absurd this (by simp)
      · exact h1
  · intro cands w fuel h
    rw [match_string_fuzzy] at h
    by_cases he : hasEmptyEntry (mkTable cands) (cands.length + 1) = true
    · rw [if_pos he] at h
      have : -ENOENT = -ENOTUNIQ := Option.some.inj h
      rw [ENOENT, ENOTUNIQ] at this
      omega
    · rw [if_neg he] at h
      obtain ⟨k, hk, hstep⟩ := matchLoop_enotuniq cands w fuel 1 h
      obtain ⟨hnul, hcnt⟩ := loopStepC_enotuniq hstep
      exact ⟨k, hk, anyNull_exists hnul, hcnt⟩

theorem c6_witness : loopStepC ["colour".toList, "camera".toList] "c".toList 1 = none :=
  c6_ambiguous_only_after_exhaustion.1 ["colour".toList, "camera".toList] "c".toList 1
    (by decide) (by decide)

theorem matchLoop_some_index (cands : List Str) (w : Str) :
    ∀ (fuel count : Nat) (i : Nat),
      matchLoop (mkTable cands) (cands.length + 1) w fuel count = some (i : Int) →
      ∃ k, count ≤ k ∧ countMatches cands w k = 1 ∧ i < cands.length ∧
        matchesAt (cands.getD i []) w k = true ∧
        ∀ k', count ≤ k' → k' < k → countMatches cands w k' ≠ 1 := by
  intro fuel
  induction fuel with
  | zero => intro count i h; exact absurd h (by simp [matchLoop])
  | succ fuel ih =>
    intro count i h
    rw [matchLoop_mkTable_succ] at h
    cases ho : loopStepC cands w count with
    | none =>
      rw [ho] at h
      obtain ⟨k, hk, hone, hlen, hm, hmin⟩ := ih (count + 1) i h
      refine ⟨k, by omega, hone, hlen, hm, ?_⟩
      intro k' hk1 hk2
      by_cases hkc : k' = count
      · subst hkc
        rcases loopStepC_cases cands w k' with
          ⟨h0, _⟩ | ⟨j, _, _, _, heq⟩ | ⟨htwo, _, _⟩
        · omega
        · rw [heq] at ho; exact Option.noConfusion ho
        · omega
      · exact hmin k' (by omega) hk2
    | some r =>
      rw [ho] at h
      have hr : r = (i : Int) := Option.some.inj h
      subst hr
      rcases loopStepC_cases cands w count with
        ⟨h0, heq⟩ | ⟨j, hj, hmj, hone, heq⟩ | ⟨htwo, hor, himp⟩
      · rw [heq] at ho
        by_cases hnul : anyNull cands count = true
        · rw [if_pos hnul] at ho
          have h1 : -ENOTUNIQ = (i : Int) := Option.some.inj ho
          have h2 : (0 : Int) ≤ (i : Int) := Int.natCast_nonneg i
          rw [ENOTUNIQ] at h1
          omega
        · rw [if_neg hnul] at ho
          exact Option.noConfusion ho
      · rw [heq] at ho
        have h1 : (j : Int) = (i : Int) := Option.some.inj ho
        have hji : j = i := by exact_mod_cast h1
        subst hji
        exact ⟨count, Nat.le_refl _, hone, hj, hmj, fun k' hc1 hc2 => by omega⟩
      · rcases hor with h1 | h1 <;> rw [h1] at ho
        · have h2 : -ENOTUNIQ = (i : Int) := Option.some.inj ho
          have h3 : (0 : Int) ≤ (i : Int) := Int.natCast_nonneg i
          rw [ENOTUNIQ] at h2
          omega
        · exact Option.noConfusion ho

/-- Claim C5 counterexample: with the table `{"aa","b","ac"}` and input
"aa", round `k = 2` has exactly one matching candidate (index 0), yet the
resolver does not return that index at the smallest unique `k`: it fails
with `-ENOTUNIQ` already at `k = 1`, because candidate "b" is exhausted
there while "aa" and "ac" both match. -/
theorem c5_counterexample :
    countMatches ["aa".toList, "b".toList, "ac".toList] "aa".toList 2 = 1 ∧
    matchesAt (["aa".toList, "b".toList, "ac".toList].getD 0 []) "aa".toList 2 = true ∧
    match_string_fuzzy (mkTable ["aa".toList, "b".toList, "ac".toList]) 4 "aa".toList 9 =
      some (-ENOTUNIQ) := by
  exact ⟨by decide, by decide, by decide⟩

/-- Claim C5 (amended): whenever the resolver returns a candidate index
`i`, it does so at the smallest prefix length `k` at which exactly one
candidate's first `k` characters case-insensitively equal the input's, and
`i` is that candidate; in particular `match({"source","camera"}, "s") = 0`
and `match({"source","camera"}, "c") = 1`, although "c" is shorter than
the point where the candidates diverge from other possible c-words. -/
theorem c5_shortest_unique_on_success :
    (∀ (cands : List Str) (w : Str) (fuel : Nat) (i : Nat),
      match_string_fuzzy (mkTable cands) (cands.length + 1) w fuel = some (i : Int) →
      ∃ k, 1 ≤ k ∧ countMatches cands w k = 1 ∧ i < cands.length ∧
        matchesAt (cands.getD i []) w k = true ∧
        ∀ k', 1 ≤ k' → k' < k → countMatches cands w k' ≠ 1) ∧
    match_string_fuzzy source_table (MMAL_COUNTOF source_table) "s".toList 9 = some 0 ∧
    match_string_fuzzy source_table (MMAL_COUNTOF source_table) "c".toList 9 = some 1 := by
  refine ⟨?_, by decide, by decide⟩
  intro cands w fuel i h
  rw [match_string_fuzzy] at h
  by_cases he : hasEmptyEntry (mkTable cands) (cands.length + 1) = true
  · rw [if_pos he] at h
    have h1 : -ENOENT = (i : Int) := Option.some.inj h
    have h2 : (0 : Int) ≤ (i : Int) := Int.natCast_nonneg i
    rw [ENOENT] at h1
    omega
  · rw [if_neg he] at h
    exact matchLoop_some_index cands w fuel 1 i h

theorem c5_witness : ∃ k, 1 ≤ k ∧
    countMatches ["source".toList, "camera".toList] "s".toList k = 1 ∧
    0 < (["source".toList, "camera".toList] : List Str).length ∧
    matchesAt ((["source".toList, "camera".toList] : List Str).getD 0 []) "s".toList k = true ∧
    ∀ k', 1 ≤ k' → k' < k →
      countMatches ["source".toList, "camera".toList] "s".toList k' ≠ 1 :=
  c5_shortest_unique_on_success.1 ["source".toList, "camera".toList] "s".toList 9 0 (by decide)

/-- At round `L = |cands[i]|`, with input `cands[i]` itself, no other
candidate matches: a match would make the lowered input a prefix of the
lowered candidate (or be impossible for shorter candidates). -/
theorem full_string_no_other_match (cands : List Str) (i : Nat) (hi : i < cands.length)
    (hpref : ∀ j1 : Nat, j1 < cands.length → ∀ j2 : Nat, j2 < cands.length → j1 ≠ j2 →
      ¬ (lower (cands.getD j1 []) <+: lower (cands.getD j2 []))) :
    ∀ j, j < cands.length → j ≠ i →
      matchesAt (cands.getD j []) (cands.getD i []) (cands.getD i []).length = false := by
  intro j hj hne
  cases hm : matchesAt (cands.getD j []) (cands.getD i []) (cands.getD i []).length with
  | false => rfl
  | true =>
    exfalso
    rw [matchesAt, strncasecmpZero_iff_take] at hm
    have hlw : (lower (cands.getD i [])).length = (cands.getD i []).length := by
      simp [lower]
    have hw : (lower (cands.getD i [])).take (cands.getD i []).length =
        lower (cands.getD i []) := by
      rw [← hlw, List.take_length]
    have hpre : lower (cands.getD i []) <+: lower (cands.getD j []) := by
      rw [List.prefix_iff_eq_take, hlw]
      exact (hm.trans hw).symm
    exact hpref i hi j hj (fun hij => hne hij.symm) hpre

theorem c4_core (cands : List Str) (i : Nat) (hi : i < cands.length)
    (hpref : ∀ j1 : Nat, j1 < cands.length → ∀ j2 : Nat, j2 < cands.length → j1 ≠ j2 →
      ¬ (lower (cands.getD j1 []) <+: lower (cands.getD j2 [])))
    (hlen : ∀ j : Nat, j < cands.length →
      (cands.getD i []).length ≤ (cands.getD j []).length) :
    ∀ (f c : Nat), 1 ≤ c → c ≤ (cands.getD i []).length →
      (cands.getD i []).length ≤ c + f →
      matchLoop (mkTable cands) (cands.length + 1) (cands.getD i []) (f + 1) c =
        some (i : Int) := by
  intro f
  induction f with
  | zero =>
    intro c hc1 hc2 hc3
    have hcL : c = (cands.getD i []).length := by omega
    rcases loopStepC_cases cands (cands.getD i []) c with
      ⟨h0, _⟩ | ⟨j, hj, hmj, hone, heq⟩ | ⟨htwo, hor, himp⟩
    · have := countMatches_pos (cands.getD i []) c cands i hi (matchesAt_self _ _)
      omega
    · have hji : j = i :=
        countMatches_unique (cands.getD i []) c cands hone j i hj hi hmj
          (matchesAt_self _ _)
      subst hji
      exact matchLoop_step_some heq
    · exfalso
      have hone : countMatches cands (cands.getD i []) c = 1 := by
        subst hcL
        exact countMatches_eq_one _ _ cands i hi (matchesAt_self _ _)
          (full_string_no_other_match cands i hi hpref)
      omega
  | succ f ih =>
    intro c hc1 hc2 hc3
    rcases loopStepC_cases cands (cands.getD i []) c with
      ⟨h0, _⟩ | ⟨j, hj, hmj, hone, heq⟩ | ⟨htwo, hor, himp⟩
    · have := countMatches_pos (cands.getD i []) c cands i hi (matchesAt_self _ _)
      omega
    · have hji : j = i :=
        countMatches_unique (cands.getD i []) c cands hone j i hj hi hmj
          (matchesAt_self _ _)
      subst hji
      exact matchLoop_step_some heq
    · by_cases hcL : c = (cands.getD i []).length
      · exfalso
        have hone : countMatches cands (cands.getD i []) c = 1 := by
          subst hcL
          exact countMatches_eq_one _ _ cands i hi (matchesAt_self _ _)
            (full_string_no_other_match cands i hi hpref)
        omega
      · have hnul : anyNull cands c = false := by
          refine anyNull_eq_false (fun x hx => ?_)
          obtain ⟨j, hj, hgj⟩ := List.getElem_of_mem hx
          have hxg : cands.getD j [] = x := by
            rw [List.getD_eq_getElem?_getD, List.getElem?_eq_getElem hj, Option.getD_some, hgj]
          have := hlen j hj
          rw [hxg] at this
          omega
        have hnone : loopStepC cands (cands.getD i []) c = none := by
          rcases hor with h1 | h1
          · have := himp h1
            rw [hnul] at this
            exact absurd this (by simp)
          · exact h1
        rw [matchLoop_step_none hnone]
        exact ih (c + 1) (by omega) (by omega) (by omega)

/-- Claim C4 counterexample: the table `{"ab","c","ax"}` is non-empty with
non-empty, pairwise distinct entries, none a case-insensitive prefix of
another, yet matching the full exact string of candidate 0 ("ab") does not
return 0: candidate "c" is exhausted at round 1 while "ab" and "ax" are
both still matching, so the resolver fails with `-ENOTUNIQ`. -/
theorem c4_counterexample :
    (∀ j1 : Nat, j1 < 3 → ∀ j2 : Nat, j2 < 3 → j1 ≠ j2 →
      ¬ (lower (["ab".toList, "c".toList, "ax".toList].getD j1 []) <+:
         lower (["ab".toList, "c".toList, "ax".toList].getD j2 []))) ∧
    (∀ j : Nat, j < 3 → (["ab".toList, "c".toList, "ax".toList] : List Str).getD j [] ≠ []) ∧
    match_string_fuzzy (mkTable ["ab".toList, "c".toList, "ax".toList]) 4
      (["ab".toList, "c".toList, "ax".toList].getD 0 []) 9 = some (-ENOTUNIQ) := by
  refine ⟨by decide, by decide, by decide⟩

/-- Claim C4 (amended): for every non-empty candidate table with pairwise
distinct entries, none a case-insensitive prefix of another, and every
index `i` such that candidate `i` is non-empty and no candidate is shorter
than candidate `i`, calling the resolver with the full exact string of
candidate `i` returns `i` (for any fuel at least that string's length). -/
theorem c4_exact_match_returns_index (cands : List Str) (i : Nat) (hi : i < cands.length)
    (hne : cands.getD i [] ≠ [])
    (hpref : ∀ j1 : Nat, j1 < cands.length → ∀ j2 : Nat, j2 < cands.length → j1 ≠ j2 →
      ¬ (lower (cands.getD j1 []) <+: lower (cands.getD j2 [])))
    (hlen : ∀ j : Nat, j < cands.length →
      (cands.getD i []).length ≤ (cands.getD j []).length)
    (fuel : Nat) (hfuel : (cands.getD i []).length ≤ fuel) :
    match_string_fuzzy (mkTable cands) (cands.length + 1) (cands.getD i []) fuel =
      some (i : Int) := by
  have hL : 1 ≤ (cands.getD i []).length := by
    cases hg : cands.getD i [] with
    | nil => exact absurd hg hne
    | cons a l => simp
  have hall : ∀ c ∈ cands, c ≠ ([] : Str) := by
    intro c hc hnil
    obtain ⟨j, hj, hgj⟩ := List.getElem_of_mem hc
    have hxg : cands.getD j [] = c := by
      rw [List.getD_eq_getElem?_getD, List.getElem?_eq_getElem hj, Option.getD_some, hgj]
    have hle := hlen j hj
    rw [hxg, hnil] at hle
    simp only [List.length_nil, Nat.le_zero] at hle
    omega
  have hemp : hasEmptyEntry (mkTable cands) (cands.length + 1) = false :=
    hasEmptyEntry_mkTable_false hall
  have hcore := c4_core cands i hi hpref hlen ((cands.getD i []).length - 1) 1
    (by omega) (by omega) (by omega)
  refine match_string_fuzzy_mono (show (cands.getD i []).length - 1 + 1 ≤ fuel by omega) ?_
  rw [match_string_fuzzy, if_neg (by simp [hemp])]
  exact hcore

theorem c4_witness :
    match_string_fuzzy (mkTable ["i420".toList, "rgba".toList])
      ((["i420".toList, "rgba".toList] : List Str).length + 1)
      ((["i420".toList, "rgba".toList] : List Str).getD 0 []) 4 = some ((0 : Nat) : Int) :=
  c4_exact_match_returns_index ["i420".toList, "rgba".toList] 0 (by decide) (by decide)
    (by decide) (by decide) 4 (by decide)

/-! ### The command-line switch and the pipeline driver of `main` -/

/-- `EXIT_SUCCESS` (stdlib.h). -/
def EXIT_SUCCESS : Nat := 0

/-- `EXIT_FAILURE` (stdlib.h). -/
def EXIT_FAILURE : Nat := 1

/-- The option characters of the optstring `"e:w:h:t:s:p:n:o:d:c:?"`
passed to `getopt` (bench_conn.c:210). -/
def optstring_chars : List Char := ['e', 'w', 'h', 't', 's', 'p', 'n', 'o', 'd', 'c', '?']

/-- Models POSIX `getopt(3)`: an option character present in the optstring
is returned as itself; an unrecognized option character makes `getopt`
return `'?'` (the optstring does not start with `':'`). -/
def getopt_class (c : Char) : Char :=
  if c ∈ optstring_chars then c else '?'

/-- The configuration `main` accumulates while parsing options
(bench_conn.c:144-207), with the declared defaults. -/
structure Config where
  encoding : Nat
  width : Int
  height : Int
  msec : Int
  source : Nat
  pattern : Nat
  camera_num : Int
  source_output_port : Int
  dest : Nat
  conn : Nat
deriving Repr, DecidableEq

/-- The initial values of `main`'s configuration variables:
`ENCODING_I420`, 1920x1080, 1000 ms, `SOURCE_SOURCE`, `PATTERN_WHITE`,
camera -1, port 0, `DEST_NULL`, `CONN_TUNNEL`. -/
def default_config : Config := ⟨0, 1920, 1080, 1000, 0, 0, -1, 0, 0, 0⟩

/-- Fuel passed to the embedded resolver inside the switch.  For every
static table of the program the outer loop returns after at most
`length of the first candidate` rounds (at most 6), so 16 is never
exhausted. -/
def optFuel : Nat := 16

/-- One iteration of the `getopt` switch of `main` (bench_conn.c:211-293):
`Except.error code` models `exit(code)`, `Except.ok cfg` models falling
through to the next option.  `atoiF` abstracts libc `atoi`, whose value
never decides control flow here. -/
def mainSwitch (atoiF : Str → Int) (opt : Char) (optarg : Str) (cfg : Config) :
    Except Nat Config :=
  if opt = 'e' then
    match match_string_fuzzy encoding_table (MMAL_COUNTOF encoding_table) optarg optFuel with
    | some idx =>
      if idx = -ENOTUNIQ then Except.error EXIT_FAILURE
      else if idx = -ENOENT then Except.error EXIT_FAILURE
      else Except.ok { cfg with encoding := idx.toNat }
    | none => Except.error EXIT_FAILURE
  else if opt = 'w' then Except.ok { cfg with width := atoiF optarg }
  else if opt = 'h' then Except.ok { cfg with height := atoiF optarg }
  else if opt = 't' then Except.ok { cfg with msec := atoiF optarg }
  else if opt = 's' then
    match match_string_fuzzy source_table (MMAL_COUNTOF source_table) optarg optFuel with
    | some idx =>
      if idx = -ENOTUNIQ then Except.error EXIT_FAILURE
      else if idx = -ENOENT then Except.error EXIT_FAILURE
      else Except.ok { cfg with source := idx.toNat }
    | none => Except.error EXIT_FAILURE
  else if opt = 'p' then
    match match_string_fuzzy pattern_table (MMAL_COUNTOF pattern_table) optarg optFuel with
    | some idx =>
      if idx = -ENOTUNIQ then Except.error EXIT_FAILURE
      else if idx = -ENOENT then Except.error EXIT_FAILURE
      else Except.ok { cfg with pattern := idx.toNat }
    | none => Except.error EXIT_FAILURE
  else if opt = 'n' then Except.ok { cfg with camera_num := atoiF optarg }
  else if opt = 'o' then Except.ok { cfg with source_output_port := atoiF optarg }
  else if opt = 'd' then
    match match_string_fuzzy dest_table (MMAL_COUNTOF dest_table) optarg optFuel with
    | some idx =>
      if idx = -ENOTUNIQ then Except.error EXIT_FAILURE
      else if idx = -ENOENT then Except.error EXIT_FAILURE
      else Except.ok { cfg with dest := idx.toNat }
    | none => Except.error EXIT_FAILURE
  else if opt = 'c' then
    match match_string_fuzzy conn_table (MMAL_COUNTOF conn_table) optarg optFuel with
    | some idx =>
      if idx = -ENOTUNIQ then Except.error EXIT_FAILURE
      else if idx = -ENOENT then Except.error EXIT_FAILURE
      else Except.ok { cfg with conn := idx.toNat }
    | none => Except.error EXIT_FAILURE
  else if opt = '?' then Except.error EXIT_SUCCESS
  else Except.error EXIT_FAILURE

/-- Claim C7: the process does NOT exit nonzero on every parse error: an
unrecognized option flag such as `-z` makes `getopt` return `'?'`, which
`main` handles by printing usage and calling `exit(EXIT_SUCCESS)` — exit
status 0.  The `default:` branch (bench_conn.c:290-292), which would exit
with `EXIT_FAILURE` on an unknown option character, is unreachable because
`getopt` never hands the raw unknown character to the switch. -/
theorem c7_unknown_option_exits_zero :
    ('z' ∉ optstring_chars) ∧ getopt_class 'z' = '?' ∧
    (∀ (atoiF : Str → Int) (optarg : Str) (cfg : Config),
      mainSwitch atoiF (getopt_class 'z') optarg cfg = Except.error EXIT_SUCCESS) ∧
    (∀ (atoiF : Str → Int) (optarg : Str) (cfg : Config),
      mainSwitch atoiF 'z' optarg cfg = Except.error EXIT_FAILURE) ∧
    EXIT_SUCCESS = 0 := by
  refine ⟨by decide, by decide, ?_, ?_, rfl⟩
  · intro atoiF optarg cfg; rfl
  · intro atoiF optarg cfg; rfl

/-- The external-library calls `main` issues, in order, each wrapped in
`check_mmal` (common.h:32-40), which exits with `EXIT_FAILURE` on the
first non-success status. -/
inductive LibCall where
  | componentCreate (name : Str)
  | portEnable (component : Str)
  | portParameterSet (component : Str) (param : Str)
  | formatCommit (component : Str)
  | componentEnable (name : Str)
  | connectionCreate (srcPort : Int)
  | connectionEnable
  | portParameterSetBool (component : Str) (param : Str)
  | connectionDisable
  | portParameterGet (component : Str)
  | connectionDestroy
  | componentDestroy (name : Str)
deriving Repr, DecidableEq

/-- `SOURCE_SOURCE` (bench_conn.c:163-165). -/
def SOURCE_SOURCE : Nat := 0

/-- `SOURCE_CAMERA` (bench_conn.c:163-165). -/
def SOURCE_CAMERA : Nat := 1

/-- `DEST_RENDER` (bench_conn.c:192-194). -/
def DEST_RENDER : Nat := 1

/-- `source_to_mmal` (bench_conn.c:169-171). -/
def source_to_mmal : List Str := ["vc.ril.source".toList, "vc.ril.camera".toList]

/-- `dest_to_mmal` (bench_conn.c:198-200). -/
def dest_to_mmal : List Str := ["vc.null_sink".toList, "vc.ril.video_render".toList]

/-- The sequence of external-library calls `main` issues after the
validation check, in source order (bench_conn.c:321-415), for a given
configuration: source component setup, destination component setup,
connection, optional capture trigger, disable, stats queries, teardown
(connection, then destination, then source). -/
def mainCalls (cfg : Config) : List LibCall :=
  let srcName := source_to_mmal.getD cfg.source []
  let destName := dest_to_mmal.getD cfg.dest []
  [LibCall.componentCreate srcName,
   LibCall.portEnable srcName] ++
  (if cfg.source = SOURCE_SOURCE then
      [LibCall.portParameterSet srcName "MMAL_PARAMETER_VIDEO_SOURCE_PATTERN".toList]
    else if cfg.source = SOURCE_CAMERA ∧ 0 ≤ cfg.camera_num then
      [LibCall.portParameterSet srcName "MMAL_PARAMETER_CAMERA_NUM".toList]
    else []) ++
  [LibCall.formatCommit srcName,
   LibCall.componentEnable srcName,
   LibCall.componentCreate destName,
   LibCall.portEnable destName,
   LibCall.formatCommit destName,
   LibCall.componentEnable destName,
   LibCall.connectionCreate cfg.source_output_port,
   LibCall.connectionEnable] ++
  (if cfg.source = SOURCE_CAMERA ∧
      (cfg.source_output_port = 1 ∨ cfg.source_output_port = 2) then
      [LibCall.portParameterSetBool srcName "MMAL_PARAMETER_CAPTURE".toList]
    else []) ++
  [LibCall.connectionDisable] ++
  (if cfg.source = SOURCE_SOURCE then [LibCall.portParameterGet srcName] else []) ++
  (if cfg.dest = DEST_RENDER then [LibCall.portParameterGet destName] else []) ++
  [LibCall.connectionDestroy,
   LibCall.componentDestroy destName,
   LibCall.componentDestroy srcName]

/-- Runs a call sequence under `check_mmal` semantics: `ok` tells whether
the library reports success for a call; the first failing call aborts the
process with `EXIT_FAILURE`.  Returns the calls actually issued and the
exit status (0 on completion, matching `return 0`). -/
def runChecked (ok : LibCall → Bool) : List LibCall → List LibCall × Nat
  | [] => ([], EXIT_SUCCESS)
  | c :: rest =>
    if ok c then
      let r := runChecked ok rest
      (c :: r.1, r.2)
    else ([c], EXIT_FAILURE)

/-- `main` after option parsing (bench_conn.c:316-415): the
source/port validation runs first; if it fails the process exits with
`EXIT_FAILURE` having issued no library call, otherwise the pipeline call
sequence runs under `check_mmal`. -/
def mainAfterParse (cfg : Config) (ok : LibCall → Bool) : List LibCall × Nat :=
  if cfg.source = SOURCE_SOURCE ∧ cfg.source_output_port ≠ 0 then ([], EXIT_FAILURE)
  else runChecked ok (mainCalls cfg)

/-- Claim C8: if the configured source kind is the synthetic generator
(`SOURCE_SOURCE`) and the output port index is nonzero, `main` exits with
failure status having issued no external-library call (in particular no
component is created); if the port index is 0 this validation passes and
execution proceeds to the pipeline call sequence unchanged. -/
theorem c8_source_port_validation (cfg : Config) (ok : LibCall → Bool)
    (hs : cfg.source = SOURCE_SOURCE) :
    (cfg.source_output_port ≠ 0 → mainAfterParse cfg ok = ([], EXIT_FAILURE)) ∧
    (cfg.source_output_port = 0 → mainAfterParse cfg ok = runChecked ok (mainCalls cfg)) := by
  constructor
  · intro hp
    rw [mainAfterParse, if_pos ⟨hs, hp⟩]
  · intro hp
    rw [mainAfterParse, if_neg (by simp [hp])]

theorem c8_witness :
    mainAfterParse { default_config with source_output_port := 1 } (fun _ => true) =
      ([], EXIT_FAILURE) ∧
    mainAfterParse default_config (fun _ => true) =
      runChecked (fun _ => true) (mainCalls default_config) :=
  ⟨(c8_source_port_validation { default_config with source_output_port := 1 }
      (fun _ => true) rfl).1 (by decide),
   (c8_source_port_validation default_config (fun _ => true) rfl).2 rfl⟩

/-! ### The sleep interval (bench_conn.c:393-398)

`struct timespec t = { .tv_sec = msec * 1e-3, .tv_nsec = (msec % 1000) * 1e6 }`:
`msec` is an `int`, converted exactly to `double`; each product performs one
binary64 rounding; the initializers convert back to integer types by
truncation toward zero. -/

/-- Exact value of the IEEE-754 binary64 literal `1e-3`: rounding `10⁻³`
to 53 significant bits gives `4611686018427388 · 2⁻⁶²`, since
`2⁶² · 10⁻³ = 4611686018427387.904`, whose nearest integer is
`4611686018427388`, an integer in `[2⁵², 2⁵³)`. -/
def D3 : ℚ := 4611686018427388 / 2 ^ 62

/-- Exact value of the binary64 literal `1e6` (exactly representable). -/
def D6 : ℚ := 1000000

/-- Round a rational to the nearest binary64 value (normal range; the tie
convention is round-half-up, which agrees with the development below since
no bound here depends on the tie direction). -/
def fl (q : ℚ) : ℚ :=
  if q = 0 then 0
  else round (q * (2 : ℚ) ^ ((52 : ℤ) - Int.log 2 |q|)) * (2 : ℚ) ^ (Int.log 2 |q| - 52)

/-- C truncation toward zero of a floating-point value to an integer type. -/
def ctrunc (q : ℚ) : ℤ :=
  if 0 ≤ q then ⌊q⌋ else -⌊-q⌋

/-- `t.tv_sec = msec * 1e-3` (bench_conn.c:395). -/
def sleep_tv_sec (msec : ℤ) : ℤ := ctrunc (fl ((msec : ℚ) * D3))

/-- `t.tv_nsec = (msec % 1000) * 1e6` (bench_conn.c:396); C `%` on `int`
is the truncated remainder `Int.tmod`. -/
def sleep_tv_nsec (msec : ℤ) : ℤ := ctrunc (fl ((((msec.tmod 1000) : ℤ) : ℚ) * D6))

theorem int_log_lt {q : ℚ} (hq : 0 < q) (m : ℤ) (h : q < 2 ^ m) : Int.log 2 q < m := by
  by_contra hc
  push_neg at hc
  have h1 : (2 : ℚ) ^ m ≤ 2 ^ Int.log 2 q :=
    zpow_le_zpow_right₀ (by norm_num) hc
  have h2 : ((2 : ℕ) : ℚ) ^ Int.log 2 q ≤ q := Int.zpow_log_le_self (by norm_num) hq
  push_cast at h2
  linarith

theorem int_le_fl {q : ℚ} (hq : 0 < q) (he : Int.log 2 q ≤ 52) {k : ℤ}
    (hk : (k : ℚ) ≤ q) : (k : ℚ) ≤ fl q := by
  rw [fl, if_neg (ne_of_gt hq), abs_of_pos hq]
  have hpow : (0 : ℚ) < (2 : ℚ) ^ ((52 : ℤ) - Int.log 2 q) := by positivity
  have hpow2 : (0 : ℚ) < (2 : ℚ) ^ (Int.log 2 q - 52) := by positivity
  have hm : (k : ℚ) * 2 ^ ((52 : ℤ) - Int.log 2 q) ≤ q * 2 ^ ((52 : ℤ) - Int.log 2 q) :=
    mul_le_mul_of_nonneg_right hk (le_of_lt hpow)
  have hint : ((k * 2 ^ ((52 : ℤ) - Int.log 2 q).toNat : ℤ) : ℚ) =
      (k : ℚ) * 2 ^ ((52 : ℤ) - Int.log 2 q) := by
    push_cast
    rw [← zpow_natCast (2 : ℚ) ((52 : ℤ) - Int.log 2 q).toNat,
      Int.toNat_of_nonneg (by omega)]
  have hfloor : (k * 2 ^ ((52 : ℤ) - Int.log 2 q).toNat : ℤ) ≤
      round (q * 2 ^ ((52 : ℤ) - Int.log 2 q)) := by
    have h1 : (k * 2 ^ ((52 : ℤ) - Int.log 2 q).toNat : ℤ) ≤
        ⌊q * 2 ^ ((52 : ℤ) - Int.log 2 q)⌋ := by
      apply Int.le_floor.mpr
      rw [hint]
      exact hm
    have h2 : ⌊q * 2 ^ ((52 : ℤ) - Int.log 2 q)⌋ ≤
        round (q * 2 ^ ((52 : ℤ) - Int.log 2 q)) := by
      rw [round_eq]
      exact Int.floor_mono (by linarith)
    omega
  have hzero : (52 : ℤ) - Int.log 2 q + (Int.log 2 q - 52) = 0 := by ring
  calc (k : ℚ) = (k : ℚ) * 2 ^ ((52 : ℤ) - Int.log 2 q) * 2 ^ (Int.log 2 q - 52) := by
        rw [mul_assoc, ← zpow_add₀ (by norm_num : (2 : ℚ) ≠ 0), hzero, zpow_zero, mul_one]
    _ ≤ (round (q * 2 ^ ((52 : ℤ) - Int.log 2 q)) : ℚ) * 2 ^ (Int.log 2 q - 52) := by
        apply mul_le_mul_of_nonneg_right _ (le_of_lt hpow2)
        rw [← hint]
        exact_mod_cast hfloor

theorem fl_le_add {q : ℚ} (hq : 0 < q) :
    fl q ≤ q + (2 : ℚ) ^ (Int.log 2 q - 53) := by
  rw [fl, if_neg (ne_of_gt hq), abs_of_pos hq]
  have hpow2 : (0 : ℚ) < (2 : ℚ) ^ (Int.log 2 q - 52) := by positivity
  have hr : (round (q * 2 ^ ((52 : ℤ) - Int.log 2 q)) : ℚ) ≤
      q * 2 ^ ((52 : ℤ) - Int.log 2 q) + 1 / 2 := round_le_add_half _
  have hzero : (52 : ℤ) - Int.log 2 q + (Int.log 2 q - 52) = 0 := by ring
  have hone : (-1 : ℤ) + (Int.log 2 q - 52) = Int.log 2 q - 53 := by ring
  calc (round (q * 2 ^ ((52 : ℤ) - Int.log 2 q)) : ℚ) * 2 ^ (Int.log 2 q - 52)
      ≤ (q * 2 ^ ((52 : ℤ) - Int.log 2 q) + 1 / 2) * 2 ^ (Int.log 2 q - 52) :=
        mul_le_mul_of_nonneg_right hr (le_of_lt hpow2)
    _ = q + (2 : ℚ) ^ (Int.log 2 q - 53) := by
        rw [add_mul, mul_assoc, ← zpow_add₀ (by norm_num : (2 : ℚ) ≠ 0), hzero, zpow_zero,
          mul_one, show (1 : ℚ) / 2 = (2 : ℚ) ^ (-1 : ℤ) by norm_num,
          ← zpow_add₀ (by norm_num : (2 : ℚ) ≠ 0), hone]

theorem fl_intCast_exact {n : ℤ} (h0 : 0 < n) (h : n < 2 ^ 53) : fl (n : ℚ) = (n : ℚ) := by
  have hq : (0 : ℚ) < (n : ℚ) := by exact_mod_cast h0
  have he52 : Int.log 2 ((n : ℚ)) ≤ 52 := by
    have h1 : ((n : ℚ)) < 2 ^ (53 : ℤ) := by
      calc ((n : ℚ)) < ((2 ^ 53 : ℤ) : ℚ) := by exact_mod_cast h
        _ = 2 ^ (53 : ℤ) := by norm_num
    have := int_log_lt hq 53 h1
    omega
  rw [fl, if_neg (ne_of_gt hq), abs_of_pos hq]
  have hscale : (n : ℚ) * 2 ^ ((52 : ℤ) - Int.log 2 ((n : ℚ))) =
      ((n * 2 ^ ((52 : ℤ) - Int.log 2 ((n : ℚ))).toNat : ℤ) : ℚ) := by
    push_cast
    rw [← zpow_natCast (2 : ℚ), Int.toNat_of_nonneg (by omega)]
  rw [hscale, round_intCast, ← hscale]
  have hzero : (52 : ℤ) - Int.log 2 ((n : ℚ)) + (Int.log 2 ((n : ℚ)) - 52) = 0 := by ring
  rw [mul_assoc, ← zpow_add₀ (by norm_num : (2 : ℚ) ≠ 0), hzero, zpow_zero, mul_one]

/-- Claim C9: for every nonnegative configured duration `msec` (an `int`,
so below `2³¹`), the interval handed to `nanosleep` is exactly `msec`
milliseconds: `tv_sec = msec div 1000` (the binary64 product
`msec * 1e-3` truncates to exactly that quotient) and
`tv_nsec = (msec mod 1000) · 10⁶` (that product is an integer below
`2⁵³`, hence exact). -/
theorem c9_sleep_interval (msec : ℕ) (h : msec < 2 ^ 31) :
    sleep_tv_sec (msec : ℤ) = ((msec / 1000 : ℕ) : ℤ) ∧
    sleep_tv_nsec (msec : ℤ) = (((msec % 1000) * 1000000 : ℕ) : ℤ) := by
  constructor
  · rcases Nat.eq_zero_or_pos msec with hz | hpos
    · subst hz
      show ctrunc (fl (((0 : ℤ) : ℚ) * D3)) = ((0 / 1000 : ℕ) : ℤ)
      norm_num [fl, ctrunc]
    · have hmr : 1000 * (msec / 1000) + msec % 1000 = msec := Nat.div_add_mod msec 1000
      have hrlt : msec % 1000 < 1000 := Nat.mod_lt _ (by norm_num)
      have hkle : msec / 1000 ≤ 2147483 := by omega
      have hcast : (msec : ℚ) = 1000 * ((msec / 1000 : ℕ) : ℚ) + ((msec % 1000 : ℕ) : ℚ) := by
        exact_mod_cast hmr.symm
      have hk0 : (0 : ℚ) ≤ ((msec / 1000 : ℕ) : ℚ) := by positivity
      have hr0 : (0 : ℚ) ≤ ((msec % 1000 : ℕ) : ℚ) := by positivity
      have hkq : ((msec / 1000 : ℕ) : ℚ) ≤ 2147483 := by exact_mod_cast hkle
      have hrq : ((msec % 1000 : ℕ) : ℚ) ≤ 999 := by
        have : msec % 1000 ≤ 999 := by omega
        exact_mod_cast this
      have hppos : 0 < (msec : ℚ) * D3 := by
        have h1 : (0 : ℚ) < (msec : ℚ) := by exact_mod_cast hpos
        rw [D3]
        positivity
      have hklep : ((msec / 1000 : ℕ) : ℚ) ≤ (msec : ℚ) * D3 := by
        rw [hcast, D3]
        nlinarith
      have hpow32 : (2 : ℚ) ^ (-(32 : ℤ)) = 1 / 4294967296 := by
        rw [zpow_neg]
        norm_num
      have hup : (msec : ℚ) * D3 + (2 : ℚ) ^ (-(32 : ℤ)) <
          ((msec / 1000 : ℕ) : ℚ) + 1 := by
        rw [hcast, D3, hpow32]
        nlinarith
      have hp22 : (msec : ℚ) * D3 < 2 ^ (22 : ℤ) := by
        have h1 : (2 : ℚ) ^ (22 : ℤ) = 4194304 := by norm_num
        have h2 : (0 : ℚ) < (2 : ℚ) ^ (-(32 : ℤ)) := by positivity
        rw [h1]
        nlinarith
      have hloglt : Int.log 2 ((msec : ℚ) * D3) < 22 := int_log_lt hppos 22 hp22
      have hle : fl ((msec : ℚ) * D3) ≤ (msec : ℚ) * D3 + (2 : ℚ) ^ (-(32 : ℤ)) := by
        have h1 := fl_le_add hppos
        have h2 : (2 : ℚ) ^ (Int.log 2 ((msec : ℚ) * D3) - 53) ≤ (2 : ℚ) ^ (-(32 : ℤ)) :=
          zpow_le_zpow_right₀ (by norm_num) (by omega)
        linarith
      have hfl_lt : fl ((msec : ℚ) * D3) < ((msec / 1000 : ℕ) : ℚ) + 1 := by
        rw [hpow32] at hle hup
        linarith
      have hfl_ge : (((msec / 1000 : ℕ) : ℤ) : ℚ) ≤ fl ((msec : ℚ) * D3) := by
        refine int_le_fl hppos (by omega) ?_
        rw [Int.cast_natCast]
        exact hklep
      have hfloor : ⌊fl ((msec : ℚ) * D3)⌋ = ((msec / 1000 : ℕ) : ℤ) := by
        rw [Int.floor_eq_iff]
        refine ⟨hfl_ge, ?_⟩
        rw [Int.cast_natCast]
        exact hfl_lt
      have hnn : (0 : ℚ) ≤ fl ((msec : ℚ) * D3) := by
        have : ((((msec / 1000 : ℕ) : ℤ)) : ℚ) ≥ 0 := by positivity
        linarith
      rw [sleep_tv_sec, show (((msec : ℤ)) : ℚ) = (msec : ℚ) by push_cast; ring,
        ctrunc, if_pos hnn, hfloor]
  · have htm : (msec : ℤ).tmod 1000 = ((msec % 1000 : ℕ) : ℤ) := by
      rw [Int.tmod_eq_emod (by positivity) (by norm_num)]
      omega
    rw [sleep_tv_nsec, htm]
    rcases Nat.eq_zero_or_pos (msec % 1000) with hz | hpos
    · rw [hz]
      norm_num [fl, ctrunc]
    · have hprod : ((((msec % 1000 : ℕ) : ℤ)) : ℚ) * D6 =
          (((msec % 1000) * 1000000 : ℕ) : ℚ) := by
        rw [Int.cast_natCast, D6, Nat.cast_mul]
        norm_num
      have h0 : (0 : ℤ) < (((msec % 1000) * 1000000 : ℕ) : ℤ) := by
        have : 0 < (msec % 1000) * 1000000 := by positivity
        exact_mod_cast this
      have h53 : ((((msec % 1000) * 1000000 : ℕ) : ℤ)) < 2 ^ 53 := by
        have h1 : (msec % 1000) * 1000000 < 1000000000 := by
          have : msec % 1000 < 1000 := Nat.mod_lt _ (by norm_num)
          nlinarith
        have h2 : (1000000000 : ℤ) < 2 ^ 53 := by norm_num
        have h3 : ((((msec % 1000) * 1000000 : ℕ) : ℤ)) < 1000000000 := by exact_mod_cast h1
        omega
      have hexact := fl_intCast_exact h0 h53
      rw [hprod]
      rw [show ((((msec % 1000) * 1000000 : ℕ)) : ℚ) =
          (((((msec % 1000) * 1000000 : ℕ) : ℤ)) : ℚ) from (Int.cast_natCast _).symm]
      rw [hexact, ctrunc, if_pos (by positivity), Int.floor_intCast]

theorem c9_witness :
    sleep_tv_sec ((1234 : ℕ) : ℤ) = 1 ∧ sleep_tv_nsec ((1234 : ℕ) : ℤ) = 234000000 := by
  have h := c9_sleep_interval 1234 (by norm_num)
  refine ⟨?_, ?_⟩
  · rw [h.1]
    norm_num
  · rw [h.2]
    norm_num
